import Mathlib

/-!
Verification of the code-review pipeline in
`Oracle_Description_Generator/code_review.py`.

The Python program is dynamically typed and passes JSON-shaped dictionaries
between its components.  The shallow embedding therefore models Python/JSON
values with an inductive `Json` type, Python dictionaries as association
lists (`JsonDict`) preserving insertion order, and operations that can raise
a Python exception as functions into `Except String`.  External interactions
(the Azure OpenAI chat request together with the `json.loads` of its body,
the git lookups, and file reads) are taken as parameters at the exact
boundary where the source calls them; everything after those boundaries is
translated directly from the source.

JSON numbers are modelled as integers: the program only ever computes with
line numbers and counts, which are integers throughout.
-/

/-- Model of a Python/JSON value as passed around by the program. -/
inductive Json where
  | null
  | bool (b : Bool)
  | num (n : Int)
  | str (s : String)
  | arr (elems : List Json)
  | obj (fields : List (String × Json))

/-- A Python dictionary with string keys, in insertion order
(Python 3.7+ dicts preserve insertion order). -/
abbrev JsonDict := List (String × Json)

/-- `d.get(k)` : lookup of the first (unique, in real dicts) binding of `k`. -/
def dget (d : JsonDict) (k : String) : Option Json :=
  (d.find? (fun p => p.1 == k)).map (fun p => p.2)

/-- `d.get(k, default)`. -/
def dgetD (d : JsonDict) (k : String) (dflt : Json) : Json :=
  (dget d k).getD dflt

/-- `k in d`. -/
def dmem (k : String) (d : JsonDict) : Bool :=
  (dget d k).isSome

/-- `d[k] = v` : replaces the value of an existing key in place (keeping the
key position, as Python dicts do) or appends a new binding at the end. -/
def dset (d : JsonDict) (k : String) (v : Json) : JsonDict :=
  match d with
  | [] => [(k, v)]
  | (k0, v0) :: rest =>
      if k0 == k then (k, v) :: rest else (k0, v0) :: dset rest k v

/-- Python truthiness of a value (used by `if commit_info:` and
`if commit_info.get('pr_number'):`). -/
def truthy : Json → Bool
  | .null => false
  | .bool b => b
  | .num n => n != 0
  | .str s => s != ""
  | .arr xs => !xs.isEmpty
  | .obj kvs => !kvs.isEmpty

/-- Characters removed by Python `str.strip()` (ASCII whitespace). -/
def isPySpace (c : Char) : Bool :=
  c == ' ' || c == '\t' || c == '\n' || c == '\r' || c == '\x0b' || c == '\x0c'

/-- `str.strip()` on the character list. -/
def pyStripChars (cs : List Char) : List Char :=
  ((cs.dropWhile isPySpace).reverse.dropWhile isPySpace).reverse

/-- `str.strip()`. -/
def pyStripString (s : String) : String :=
  String.mk (pyStripChars s.data)

/-- Whether character list `n` is a prefix of `h` (helper for substring search). -/
def isPrefixCh : List Char → List Char → Bool
  | [], _ => true
  | _ :: _, [] => false
  | a :: as, b :: bs => a == b && isPrefixCh as bs

/-- Python `n in h` substring containment on character lists. -/
def containsCh (n : List Char) : List Char → Bool
  | [] => n.isEmpty
  | c :: hs => isPrefixCh n (c :: hs) || containsCh n hs

/-- Python `s.lower()` (ASCII; the URLs the program inspects are ASCII). -/
def pyLower (s : String) : String :=
  String.mk (s.data.map Char.toLower)

/-- Python `needle in hay` on strings. -/
def pyIn (needle hay : String) : Bool :=
  containsCh needle.data hay.data

/-- Python `str.split(sep)` on character lists, fuel-based so that it is
structurally recursive (each step consumes at least one character, so a fuel
of the input length suffices).  The separator is non-empty in every use. -/
def pySplitChFuel (sep : List Char) : Nat → List Char → List (List Char)
  | 0, cs => [cs]
  | fuel + 1, cs =>
      match cs with
      | [] => [[]]
      | c :: rest =>
          if isPrefixCh sep cs && !sep.isEmpty then
            [] :: pySplitChFuel sep fuel (cs.drop sep.length)
          else
            let r := pySplitChFuel sep fuel rest
            (c :: r.headI) :: r.tail

/-- Python `str.split(sep)` for a non-empty separator. -/
def pySplit (s sep : String) : List String :=
  (pySplitChFuel sep.data (s.data.length + 1) s.data).map String.mk

/-- `s.split(sep)[-1]` : the part after the last occurrence of `sep`. -/
def afterLast (s sep : String) : String :=
  (pySplit s sep).getLastD s

/-- `s.split(sep)[0]` : the part before the first occurrence of `sep`. -/
def beforeFirst (s sep : String) : String :=
  (pySplit s sep).headD s

/-- Rendering of a value inside an f-string (`str(v)`).  The program only
ever formats strings and numbers this way (pull-request numbers); the
container cases are best-effort and never reached by the claims. -/
def pyFStr : Json → String
  | .str s => s
  | .num n => toString n
  | .bool b => if b then "True" else "False"
  | .null => "None"
  | .arr _ => "[...]"
  | .obj _ => "\x7b...\x7d"

-- Basic lemmas about the dictionary operations.

theorem dget_dset_self (d : JsonDict) (k : String) (v : Json) :
    dget (dset d k v) k = some v := by
  induction d with
  | nil => simp [dget, dset]
  | cons p rest ih =>
      obtain ⟨k0, v0⟩ := p
      by_cases h : k0 = k
      · simp [dset, h, dget]
      · simp only [dset, beq_iff_eq, h, if_false]
        simpa [dget, h] using ih

theorem dget_dset_ne (d : JsonDict) (k k' : String) (v : Json) (h : k' ≠ k) :
    dget (dset d k' v) k = dget d k := by
  induction d with
  | nil => simp [dget, dset, h]
  | cons p rest ih =>
      obtain ⟨k0, v0⟩ := p
      by_cases h0 : k0 = k'
      · simp [dset, h0, dget, h, Ne.symm h]
      · simp only [dset, beq_iff_eq, h0, if_false]
        by_cases h1 : k0 = k
        · simp [dget, h1]
        · simpa [dget, h1] using ih

theorem dmem_dset_self (d : JsonDict) (k : String) (v : Json) :
    dmem k (dset d k v) = true := by
  simp [dmem, dget_dset_self]

theorem isPrefixCh_refl (n : List Char) : isPrefixCh n n = true := by
  induction n with
  | nil => rfl
  | cons c cs ih => simp [isPrefixCh, ih]

theorem containsCh_append_left (n pre : List Char) :
    containsCh n (pre ++ n) = true := by
  induction pre with
  | nil =>
      cases n with
      | nil => rfl
      | cons c cs => simp [containsCh, isPrefixCh_refl]
  | cons c cs ih => simp [containsCh, ih]

/-!
Pull-request number extraction (`get_commit_info`, lines 133–158) and PR URL
generation (`_generate_pr_url`, lines 359–375).

`re.search` is embedded as a left-to-right scan that attempts the pattern at
every position (leftmost match wins) and returns the first capture group.
The five patterns are translated individually; `\s` is Python regex ASCII
whitespace and `\d` is an ASCII digit, matched greedily (for these patterns
the greedy match coincides with the backtracking semantics, since no digit
can also match the character required after the capture group).
-/

/-- Match one or more digits greedily, returning the digits and the rest. -/
def digitsOnePlus (cs : List Char) : Option (String × List Char) :=
  let ds := cs.takeWhile Char.isDigit
  if ds.isEmpty then none else some (String.mk ds, cs.dropWhile Char.isDigit)

/-- Strip a literal character-list prefix, or fail. -/
def dropPrefixCh : List Char → List Char → Option (List Char)
  | [], cs => some cs
  | _ :: _, [] => none
  | p :: ps, c :: cs => if p == c then dropPrefixCh ps cs else none

/-- Pattern `Merge pull request #(\d+)` attempted at the current position. -/
def matchMergePr (cs : List Char) : Option String :=
  match dropPrefixCh "Merge pull request #".data cs with
  | none => none
  | some rest => (digitsOnePlus rest).map (fun p => p.1)

/-- Pattern `(?:^|\s)\(#(\d+)\)` attempted at the current position; `bound`
says whether this position is the string start or follows a whitespace
character (the consumed `^|\s` alternative). -/
def matchParenHash (bound : Bool) (cs : List Char) : Option String :=
  if !bound then none
  else
    match dropPrefixCh "(#".data cs with
    | none => none
    | some rest =>
      match digitsOnePlus rest with
      | none => none
      | some (d, rest2) =>
        match rest2 with
        | ')' :: _ => some d
        | _ => none

/-- Pattern `(?:^|\s)#(\d+)` attempted at the current position. -/
def matchHash (bound : Bool) (cs : List Char) : Option String :=
  if !bound then none
  else
    match dropPrefixCh "#".data cs with
    | none => none
    | some rest => (digitsOnePlus rest).map (fun p => p.1)

/-- Pattern `PR[:\s-]#?(\d+)` attempted at the current position. -/
def matchPrSep (cs : List Char) : Option String :=
  match dropPrefixCh "PR".data cs with
  | none => none
  | some rest =>
    match rest with
    | [] => none
    | c :: rest2 =>
      if c == ':' || isPySpace c || c == '-' then
        match rest2 with
        | '#' :: rest3 => (digitsOnePlus rest3).map (fun p => p.1)
        | _ => (digitsOnePlus rest2).map (fun p => p.1)
      else none

/-- Pattern matching `pull`, then a slash or a dash, then digits, attempted
at the current position. -/
def matchPullSlash (cs : List Char) : Option String :=
  match dropPrefixCh "pull".data cs with
  | none => none
  | some rest =>
    match rest with
    | [] => none
    | c :: rest2 =>
      if c == '/' || c == '-' then (digitsOnePlus rest2).map (fun p => p.1)
      else none

/-- `re.search` driver: attempt the pattern at each position left to right,
tracking whether the position is at the start or right after whitespace. -/
def searchFrom (attempt : Bool → List Char → Option String) :
    Bool → List Char → Option String
  | bound, [] => attempt bound []
  | bound, c :: rest =>
    match attempt bound (c :: rest) with
    | some g => some g
    | none => searchFrom attempt (isPySpace c) rest

/-- The five `re.search` calls of `get_commit_info`, in source order. -/
def searchPrPatterns (m : String) : List (Option String) :=
  [searchFrom (fun _ cs => matchMergePr cs) true m.data,
   searchFrom matchParenHash true m.data,
   searchFrom matchHash true m.data,
   searchFrom (fun _ cs => matchPrSep cs) true m.data,
   searchFrom (fun _ cs => matchPullSlash cs) true m.data]

/-- The PR-number loop of `get_commit_info` (lines 141–149): the commit
message is stripped, then the patterns are tried in listed order and the
first match wins. -/
def extract_pr_number (message : String) : Option String :=
  let m := pyStripString message
  match searchFrom (fun _ cs => matchMergePr cs) true m.data with
  | some n => some n
  | none =>
    match searchFrom matchParenHash true m.data with
    | some n => some n
    | none =>
      match searchFrom matchHash true m.data with
      | some n => some n
      | none =>
        match searchFrom (fun _ cs => matchPrSep cs) true m.data with
        | some n => some n
        | none => searchFrom (fun _ cs => matchPullSlash cs) true m.data

/-- The dictionary returned by `get_commit_info` (lines 151–158) as a
function of the data of the most recent commit touching the file, which the
external git library provides. -/
def get_commit_info_dict (committer hexsha message dateIso : String)
    (repoUrl : Option String) : JsonDict :=
  [("committer_name", .str committer),
   ("commit_hash", .str hexsha),
   ("commit_message", .str (pyStripString message)),
   ("commit_date", .str dateIso),
   ("pr_number", match extract_pr_number message with
                 | some n => .str n
                 | none => .null),
   ("repo_url", match repoUrl with
                | some u => .str u
                | none => .null)]

/-- `_generate_pr_url` (lines 359–375).  Returns `none` for a falsy PR
number or an unrecognized provider.  The dynamic accesses can raise: a
non-string `repo_url` has no `.lower()`, and the Azure DevOps branch indexes
`parts[3]`/`parts[4]` unconditionally. -/
def _generate_pr_url (commit_info : JsonDict) : Except String (Option String) :=
  match dget commit_info "pr_number" with
  | none => Except.ok none
  | some prv =>
    if !truthy prv then Except.ok none
    else
      match dgetD commit_info "repo_url" (.str "") with
      | .str ru =>
        let low := pyLower ru
        if pyIn "github.com" low then
          let repoParts := beforeFirst (afterLast ru "github.com/") ".git"
          Except.ok (some ("https://github.com/" ++ repoParts ++ "/pull/" ++ pyFStr prv))
        else if pyIn "dev.azure.com" low then
          let parts := pySplit ru "/"
          match parts.get? 3, parts.get? 4 with
          | some org, some proj =>
            Except.ok (some ("https://dev.azure.com/" ++ org ++ "/" ++ proj ++
              "/_git/pullrequest/" ++ pyFStr prv))
          | _, _ => Except.error "IndexError: list index out of range"
        else Except.ok none
      | _ => Except.error "AttributeError: lower on non-string repo url"

/-!
Language detection (`detect_language`, lines 256–259) with the extension
table from `CodeReviewer.__init__`, and the chunk builder
(`split_code_into_chunks`, lines 261–282).
-/

/-- The `programming_languages_extensions` table (lines 220–226). -/
def programming_languages_extensions : List (String × String) :=
  [("py", "Python"), ("cs", "C#"), ("js", "JavaScript"), ("java", "Java"),
   ("cpp", "C++"), ("c", "C"), ("rb", "Ruby"), ("go", "Go"), ("php", "PHP"),
   ("ts", "TypeScript"), ("swift", "Swift"), ("kt", "Kotlin"), ("rs", "Rust"),
   ("html", "HTML"), ("css", "CSS"), ("sh", "Shell Script"), ("dart", "Dart"),
   ("ipynb", "Python")]

/-- The extension part of `os.path.splitext` applied to a path basename:
everything from the last dot on, unless every character of the basename
before that dot is itself a dot (then the extension is empty). -/
def extOfBasename (b : List Char) : List Char :=
  let rev := b.reverse
  let extRev := rev.takeWhile (fun c => c != '.')
  match rev.dropWhile (fun c => c != '.') with
  | '.' :: pre =>
      if pre.any (fun c => c != '.') then '.' :: extRev.reverse else []
  | _ => []

/-- `detect_language` : `os.path.splitext(file_path)[1].lstrip('.')` looked
up in the extension table, defaulting to Unknown. -/
def detect_language (file_path : String) : String :=
  let basename := (file_path.data.reverse.takeWhile (fun c => c != '/')).reverse
  let ext := String.mk ((extOfBasename basename).dropWhile (fun c => c == '.'))
  ((programming_languages_extensions.find? (fun p => p.1 == ext)).map
    (fun p => p.2)).getD "Unknown"

/-- Python `code.split('\n')` on the character list: always non-empty, and
no produced line contains a newline. -/
def pySplitNlChars : List Char → List (List Char)
  | [] => [[]]
  | c :: cs =>
      if c == '\n' then [] :: pySplitNlChars cs
      else (c :: (pySplitNlChars cs).headI) :: (pySplitNlChars cs).tail

/-- Python `'\n'.join(lines)` on character lists. -/
def pyJoinNl : List (List Char) → List Char
  | [] => []
  | [x] => x
  | x :: y :: xs => x ++ '\n' :: pyJoinNl (y :: xs)

/-- The accumulation loop of `split_code_into_chunks` (lines 269–281):
`cur` is `current_chunk`, `size` is `current_size` (characters of the
accumulated lines, newlines not counted), `st` is `start_line`.  A chunk is
flushed before adding a line when the size would exceed the bound and the
current chunk is non-empty. -/
def splitLoop (max_chunk_size : Int) :
    List (List Char) → List (List Char) → Nat → Nat → List (List Char × Nat)
  | [], cur, _, st => if cur.isEmpty then [] else [(pyJoinNl cur, st)]
  | l :: ls, cur, size, st =>
      if decide ((size : Int) + l.length > max_chunk_size) && !cur.isEmpty then
        (pyJoinNl cur, st) :: splitLoop max_chunk_size ls [l] l.length (st + cur.length)
      else
        splitLoop max_chunk_size ls (cur ++ [l]) (size + l.length) st

/-- `split_code_into_chunks` (lines 261–282): split the code on newlines and
regroup whole lines into chunks, recording each chunk's starting line. -/
def split_code_into_chunks (code : String) (max_chunk_size : Int := 2000) :
    List (String × Nat) :=
  (splitLoop max_chunk_size (pySplitNlChars code.data) [] 0 1).map
    (fun p => (String.mk p.1, p.2))

/-- Number of lines of a chunk text (its newline count plus one). -/
def numLines (s : String) : Nat :=
  (pySplitNlChars s.data).length

/-!
The LLM review client `_get_ai_code_review` (lines 284–357).

The external interaction is the chat-completion request plus the
`json.loads` of its body.  It is abstracted as
`Except String ModelResponse`: an `Except.error e` is the request raising an
exception with text `e` (caught by the outer handler, line 345); an
`Except.ok` response carries the raw response text
(`response.choices[0].message.content`) together with the result of
`json.loads` on it — `none` when `json.loads` raises `JSONDecodeError`
(caught by the inner handler, line 331).  The pair abstracts the JSON parser
itself; counterexamples below only use pairs a real parser could produce.

Everything after that boundary is translated from the source, including the
dynamic errors: `.get('issues', [])` on a non-dict raises (inner handler
catches only `JSONDecodeError`, so the outer one turns this into the
Critical fallback), and each element of `issues` must be a dict whose
`line` value supports addition with an integer.
-/

/-- The outcome of `self.client.chat.completions.create` followed by
`json.loads(response.choices[0].message.content)`. -/
structure ModelResponse where
  content : String
  parsed : Option Json

/-- `Except`-valued map that stops at the first error, like a Python `for`
loop over a list whose body can raise. -/
def mapExcept (f : α → Except String β) : List α → Except String (List β)
  | [] => .ok []
  | x :: xs => do
      let y ← f x
      let ys ← mapExcept f xs
      .ok (y :: ys)

/-- `value + m` for a Python int `m`: succeeds on numbers (and bools, which
are ints in Python), raises `TypeError` otherwise. -/
def pyAddInt (v : Json) (m : Int) : Except String Json :=
  match v with
  | .num n => .ok (.num (n + m))
  | .bool b => .ok (.num ((if b then 1 else 0) + m))
  | _ => .error "TypeError: unsupported operand types for add"

/-- `json.loads(...).get('issues', [])` : attribute access on the parsed
value; only dicts have `.get`. -/
def pyDictGet (j : Json) (k : String) (dflt : Json) : Except String Json :=
  match j with
  | .obj kvs => .ok (dgetD kvs k dflt)
  | _ => .error "AttributeError: object has no attribute get"

/-- The loop body for one parsed issue (lines 321–329): shift the line by
`start_line - 1`, then attach commit info and, when a PR number is present,
the PR info with its generated URL. -/
def processIssue (start_line : Int) (commit_info : JsonDict) (j : Json) :
    Except String JsonDict :=
  match j with
  | .obj i => do
      let shifted ← pyAddInt (dgetD i "line" (.num 1)) (start_line - 1)
      let i1 := dset i "line" shifted
      if commit_info.isEmpty then
        .ok i1
      else
        let i2 := dset i1 "commit_info" (.obj commit_info)
        match dget commit_info "pr_number" with
        | some prv =>
            if truthy prv then do
              let url ← _generate_pr_url commit_info
              .ok (dset i2 "pr_info"
                (.obj [("number", prv),
                       ("url", match url with
                               | some u => .str u
                               | none => .null)]))
            else .ok i2
        | none => .ok i2
  | _ => .error "AttributeError: issue element has no attribute get"

/-- `for issue in issues:` over the value bound to `issues`.  Iterating a
non-sequence raises; iterating a string or a dict yields strings, on which
the loop body raises at its first attribute access — unless the iteration is
empty, in which case the loop body never runs. -/
def forIssues (start_line : Int) (commit_info : JsonDict) :
    Json → Except String (List JsonDict)
  | .arr xs => mapExcept (processIssue start_line commit_info) xs
  | .str s =>
      if s.data.isEmpty then .ok []
      else .error "AttributeError: issue element has no attribute get"
  | .obj kvs =>
      if kvs.isEmpty then .ok []
      else .error "AttributeError: issue element has no attribute get"
  | _ => .error "TypeError: object is not iterable"

/-- The Critical fallback issue of the outer exception handler
(lines 345–357). -/
def criticalFallback (e : String) (start_line : Int) (commit_info : JsonDict) :
    JsonDict :=
  [("type", .str "Critical Issue"),
   ("message", .str ("AI Review Error: " ++ e)),
   ("line", .num start_line),
   ("code", .str "N/A"),
   ("suggestion", .obj [("text", .str "Manual review recommended"),
                        ("code", .null)]),
   ("commit_info", .obj commit_info)]

/-- The Best Practice fallback issue of the `JSONDecodeError` handler
(lines 331–343), carrying the raw model text as the suggestion and the
original file content. -/
def bestPracticeFallback (raw code : String) (start_line : Int)
    (commit_info : JsonDict) : JsonDict :=
  [("type", .str "Best Practice"),
   ("message", .str "General Review"),
   ("line", .num start_line),
   ("code", .str "Full file"),
   ("original_code_content", .str code),
   ("suggestion", .obj [("text", .str raw), ("code", .null)]),
   ("commit_info", .obj commit_info)]

/-- `_get_ai_code_review` (lines 284–357).  Note `commit_info if commit_info
else {}` in the fallbacks equals `commit_info` itself once `None` is
modelled as the empty dict, which is how `review_code` always calls it. -/
def _get_ai_code_review (transport : Except String ModelResponse)
    (code language : String) (start_line : Int) (commit_info : JsonDict) :
    List JsonDict :=
  match transport with
  | .error e => [criticalFallback e start_line commit_info]
  | .ok resp =>
    match resp.parsed with
    | none => [bestPracticeFallback resp.content code start_line commit_info]
    | some j =>
      match (do
          let issuesJ ← pyDictGet j "issues" (.arr [])
          forIssues start_line commit_info issuesJ : Except String (List JsonDict)) with
      | .ok processed => processed
      | .error e => [criticalFallback e start_line commit_info]

/-!
The issue post-processor: `_deduplicate_issues` (lines 413–424) and the
enrichment plus stable sort of `review_code` (lines 377–411).

The dedup key is the Python tuple `(issue.get('line'),
issue.get('message', '')[:100])`, stored in a set.  Hashable key components
are modelled by `HKey`; Python `True`/`False` compare and hash equal to
`1`/`0`, so bools are folded into numbers.  Building the key raises when the
message is not sliceable (or slices to an unhashable list), and inserting it
raises when the line value is unhashable; either error propagates to
`review_code`, whose own handler (lines 400–411) converts it into a generic
Critical issue.
-/

/-- A hashable dedup-key component. -/
inductive HKey where
  | null
  | num (n : Int)
  | str (s : String)
deriving DecidableEq

/-- Hash-key view of a value: containers are unhashable. -/
def hkeyOf : Json → Except String HKey
  | .null => .ok .null
  | .bool b => .ok (.num (if b then 1 else 0))
  | .num n => .ok (.num n)
  | .str s => .ok (.str s)
  | .arr _ => .error "TypeError: unhashable type: list"
  | .obj _ => .error "TypeError: unhashable type: dict"

/-- `issue.get('message', '')[:100]` as a hashable key component: slicing a
string takes its first 100 characters; slicing a list succeeds but the
result is unhashable; anything else is not subscriptable. -/
def sliceKey : Json → Except String String
  | .str s => .ok (String.mk (s.data.take 100))
  | .arr _ => .error "TypeError: unhashable type: list"
  | _ => .error "TypeError: object is not subscriptable"

/-- The dedup key `(issue.get('line'), issue.get('message', '')[:100])` of
one issue, or the exception its construction/hashing raises. -/
def dedupKeyE (i : JsonDict) : Except String (Option HKey × String) := do
  let p ← sliceKey (dgetD i "message" (.str ""))
  let l ← match dget i "line" with
          | none => pure (none : Option HKey)
          | some v => (hkeyOf v).map some
  .ok (l, p)

/-- The loop of `_deduplicate_issues` with `seen` the set of keys so far. -/
def dedupAux (seen : List (Option HKey × String)) :
    List JsonDict → Except String (List JsonDict)
  | [] => .ok []
  | i :: rest => do
      let k ← dedupKeyE i
      if k ∈ seen then dedupAux seen rest
      else do
        let r ← dedupAux (k :: seen) rest
        .ok (i :: r)

/-- `_deduplicate_issues` (lines 413–424): keep the first occurrence of each
key. -/
def _deduplicate_issues (issues : List JsonDict) : Except String (List JsonDict) :=
  dedupAux [] issues

/-- The sort key `x.get('line', 0)` viewed as an integer (bools are ints). -/
def jnumOf : Json → Option Int
  | .num n => some n
  | .bool b => some (if b then 1 else 0)
  | _ => none

/-- Integer sort key of an issue (total version, meaningful when the guard
of `pySortedByLine` holds). -/
def lineInt (i : JsonDict) : Int :=
  (jnumOf (dgetD i "line" (.num 0))).getD 0

/-- Stable insertion of an issue into an already sorted list: the inserted
issue goes before the first strictly-later position, i.e. before elements
with a larger key and after earlier elements with an equal key. -/
def ordInsertLine (i : JsonDict) : List JsonDict → List JsonDict
  | [] => [i]
  | h :: t => if lineInt i ≤ lineInt h then i :: h :: t else h :: ordInsertLine i t

/-- Stable insertion sort by line number, the behaviour of Python `sorted`
with key `x.get('line', 0)` (Timsort is a stable sort, and a stable sort is
extensionally unique). -/
def insertionSortLine : List JsonDict → List JsonDict
  | [] => []
  | h :: t => ordInsertLine h (insertionSortLine t)

/-- `sorted(unique_issues, key=lambda x: x.get('line', 0))`.  Python raises
`TypeError` only when it actually compares incomparable keys; after
`_get_ai_code_review` every issue carries a numeric `line`
(`_get_ai_code_review_line_num` below), so inside `review_code` only the
all-numeric branch is reachable and the guard is exact there. -/
def pySortedByLine (l : List JsonDict) : Except String (List JsonDict) :=
  if l.all (fun i => (jnumOf (dgetD i "line" (.num 0))).isSome) then
    .ok (insertionSortLine l)
  else .error "TypeError: comparison not supported between key types"

/-- The generic Critical issue of the exception handler of `review_code`
(lines 400–411). -/
def checkCodeContentIssue (e : String) : JsonDict :=
  [("type", .str "Critical Issue"),
   ("message", .str e),
   ("line", .num 1),
   ("code", .str "N/A"),
   ("suggestion", .obj [("text", .str "Check code content"), ("code", .null)]),
   ("commit_info", .obj [])]

/-- The enrichment loop of `review_code` (lines 392–394): fill in
`original_code_content` when the client did not set it. -/
def enrichIssue (code_content : String) (i : JsonDict) : JsonDict :=
  if dmem "original_code_content" i then i
  else dset i "original_code_content" (.str code_content)

/-- The post-processing part of `review_code` (lines 391–398 together with
the handler of lines 400–411): enrich, deduplicate, sort; an exception from
the dedup key or the sort comparison becomes the generic Critical issue. -/
def reviewPost (code_content : String) (issues : List JsonDict) : List JsonDict :=
  let enriched := issues.map (enrichIssue code_content)
  match _deduplicate_issues enriched with
  | .error e => [checkCodeContentIssue e]
  | .ok uniq =>
    match pySortedByLine uniq with
    | .error e => [checkCodeContentIssue e]
    | .ok sortedIssues => sortedIssues

/-- `review_code` (lines 377–411).  The `transport` parameter is the model
request boundary (as in `_get_ai_code_review`), and `commit_info` is the
dictionary `git_handler.get_commit_info(file_path)` returns (empty when no
file path or git handler was supplied).  Whitespace-only content returns no
issues; otherwise the whole file is reviewed as a single chunk with
`start_line = 1`. -/
def review_code (transport : Except String ModelResponse)
    (commit_info : JsonDict) (code_content language : String) : List JsonDict :=
  if pyStripString code_content == "" then []
  else
    reviewPost code_content
      (_get_ai_code_review transport code_content language 1 commit_info)

/-!
The parallel review coordinator `review_files_parallel` (lines 426–499).

Each task runs `review_file` on one file descriptor.  The per-file external
interactions — the git commit lookup, the file read (with its
utf-8/latin-1 fallback, which can still raise e.g. `FileNotFoundError`),
and the model request — are supplied by a `TaskEnv`.  `review_file` catches
every exception of its body and converts it into an error record
(lines 477–484), so `future.result()` never raises and every submitted
future contributes exactly one record.  The thread pool is abstracted by
the completion order in which `concurrent.futures.as_completed` yields the
futures: an arbitrary permutation of the submitted descriptors.  The worker
count `max_workers` influences scheduling only, never the set of records.
-/

/-- A file descriptor from `files_to_review`. -/
structure FileInfo where
  relative_path : String
  absolute_path : String

/-- The per-file external interactions of one review task. -/
structure TaskEnv where
  commitInfo : FileInfo → JsonDict
  readFile : FileInfo → Except String String
  transport : FileInfo → Except String ModelResponse

/-- The `issues_by_type` dictionary of a successful record (lines 461–467).
`i['type']` is a direct index: the first issue without a `type` key raises
`KeyError`. -/
def issuesByType (issues : List JsonDict) : Except String JsonDict :=
  if issues.all (fun i => dmem "type" i) then
    .ok (["Critical Issue", "Improvement Needed", "Best Practice",
          "Security Concern", "Performance Impact"].map
      (fun t =>
        (t, Json.num (issues.countP
          (fun i => match dget i "type" with
                    | some (.str s) => s == t
                    | _ => false)))))
  else .error "KeyError: type"

/-- The successful result record of `review_file` (lines 455–468). -/
def successRecord (fi : FileInfo) (commit_info : JsonDict) (code_content : String)
    (issues : List JsonDict) (counts : JsonDict) : JsonDict :=
  [("file", .str fi.relative_path),
   ("commit_info", .obj commit_info),
   ("issues", .arr (issues.map Json.obj)),
   ("original_code_content", .str code_content),
   ("issues_count", .num issues.length),
   ("issues_by_type", .obj counts)]

/-- The `issues_by_type` keys of the error record (lines 482–483) come from
`IssueType.__dict__.values()` filtered to strings not starting with an
underscore.  Running as a script, `__module__` is the string `__main__`
(filtered out), while `__qualname__` (the string `IssueType`) and the class
docstring pass the filter, alongside the five issue-type strings. -/
def issueTypeDictStrValues : List String :=
  ["IssueType", "Enumeration of issue types for code review.",
   "Critical Issue", "Improvement Needed", "Best Practice",
   "Security Concern", "Performance Impact"]

/-- The error record of the per-task exception handler (lines 477–484). -/
def errorRecord (relative_path e : String) : JsonDict :=
  [("file", .str relative_path),
   ("error", .str e),
   ("issues_count", .num 0),
   ("issues_by_type", .obj (issueTypeDictStrValues.map (fun t => (t, Json.num 0))))]

/-- The body of `review_file` inside its `try` (lines 437–475), in source
order: commit lookup, file read, language detection, pipeline, record
construction.  The progress-counter update only prints and is not part of
the record. -/
def taskBody (env : TaskEnv) (fi : FileInfo) : Except String JsonDict := do
  let commit_info := env.commitInfo fi
  let code_content ← env.readFile fi
  let language := detect_language fi.absolute_path
  let issues := review_code (env.transport fi) commit_info code_content language
  let counts ← issuesByType issues
  .ok (successRecord fi commit_info code_content issues counts)

/-- `review_file` (lines 434–484): the task never raises — any exception of
its body becomes the error record. -/
def review_file (env : TaskEnv) (fi : FileInfo) : JsonDict :=
  match taskBody env fi with
  | .ok r => r
  | .error e => errorRecord fi.relative_path e

/-- `review_files_parallel` (lines 426–499): one future per descriptor; the
results list collects `future.result()` in completion order.  `order` is
the completion order (a permutation of `files_to_review` in the theorems);
`max_workers` bounds concurrency only and does not affect the records. -/
def review_files_parallel (env : TaskEnv) (files_to_review : List FileInfo)
    (max_workers : Nat) (order : List FileInfo) : List JsonDict :=
  order.map (review_file env)

/-!
Properties of `split_code_into_chunks` (claim C8): joining the chunks with a
newline reproduces the input, and each chunk starts at one plus the number
of lines in all preceding chunks.
-/

theorem pySplitNlChars_cons_nl (cs : List Char) :
    pySplitNlChars ('\n' :: cs) = [] :: pySplitNlChars cs := by
  simp [pySplitNlChars]

theorem pySplitNlChars_cons_ne (c : Char) (cs : List Char) (h : c ≠ '\n') :
    pySplitNlChars (c :: cs)
      = (c :: (pySplitNlChars cs).headI) :: (pySplitNlChars cs).tail := by
  simp [pySplitNlChars, h]

theorem pySplitNlChars_ne_nil (cs : List Char) : pySplitNlChars cs ≠ [] := by
  cases cs with
  | nil => simp [pySplitNlChars]
  | cons c cs =>
      by_cases h : c = '\n'
      · subst h; rw [pySplitNlChars_cons_nl]; simp
      · rw [pySplitNlChars_cons_ne c cs h]; simp

theorem pyJoinNl_splitNl (cs : List Char) : pyJoinNl (pySplitNlChars cs) = cs := by
  induction cs with
  | nil => rfl
  | cons c cs ih =>
      by_cases h : c = '\n'
      · subst h
        rw [pySplitNlChars_cons_nl]
        cases hs : pySplitNlChars cs with
        | nil => exact absurd hs (pySplitNlChars_ne_nil cs)
        | cons a as =>
            rw [hs] at ih
            show pyJoinNl ([] :: a :: as) = '\n' :: cs
            have : pyJoinNl ([] :: a :: as) = [] ++ '\n' :: pyJoinNl (a :: as) := rfl
            rw [this, ih]
            rfl
      · rw [pySplitNlChars_cons_ne c cs h]
        cases hs : pySplitNlChars cs with
        | nil => exact absurd hs (pySplitNlChars_ne_nil cs)
        | cons a as =>
            rw [hs] at ih
            show pyJoinNl ((c :: a) :: as) = c :: cs
            cases as with
            | nil =>
                have h1 : pyJoinNl [a] = a := rfl
                rw [h1] at ih
                show pyJoinNl [c :: a] = c :: cs
                have h2 : pyJoinNl [c :: a] = c :: a := rfl
                rw [h2, ih]
            | cons a2 as2 =>
                have h1 : pyJoinNl ((c :: a) :: a2 :: as2)
                    = (c :: a) ++ '\n' :: pyJoinNl (a2 :: as2) := rfl
                have h2 : pyJoinNl (a :: a2 :: as2)
                    = a ++ '\n' :: pyJoinNl (a2 :: as2) := rfl
                rw [h1]
                rw [h2] at ih
                rw [show (c :: a) ++ '\n' :: pyJoinNl (a2 :: as2)
                    = c :: (a ++ '\n' :: pyJoinNl (a2 :: as2)) from rfl, ih]

theorem splitLoop_ne_nil (m : Int) (ls cur : List (List Char)) (sz st : Nat)
    (h : cur ≠ []) : splitLoop m ls cur sz st ≠ [] := by
  induction ls generalizing cur sz st with
  | nil => simp [splitLoop, h]
  | cons l ls ih =>
      simp only [splitLoop]
      by_cases hc : decide ((sz : Int) + l.length > m) && !cur.isEmpty
      · simp [hc]
      · simp only [hc, if_false]
        exact ih (cur ++ [l]) (sz + l.length) st (by simp)

theorem pyJoinNl_append (xs ys : List (List Char)) (hx : xs ≠ []) (hy : ys ≠ []) :
    pyJoinNl (xs ++ ys) = pyJoinNl xs ++ '\n' :: pyJoinNl ys := by
  induction xs with
  | nil => exact absurd rfl hx
  | cons x xs ih =>
      cases xs with
      | nil =>
          cases ys with
          | nil => exact absurd rfl hy
          | cons y ys => simp [pyJoinNl]
      | cons x2 xs2 =>
          have hih := ih (by simp)
          simp only [List.cons_append] at hih ⊢
          simp only [pyJoinNl, hih, List.append_assoc, List.cons_append]

theorem splitLoop_join (m : Int) (ls : List (List Char)) :
    ∀ (cur : List (List Char)) (sz st : Nat), cur ≠ [] →
    pyJoinNl ((splitLoop m ls cur sz st).map Prod.fst) = pyJoinNl (cur ++ ls) := by
  induction ls with
  | nil => intro cur sz st h; simp [splitLoop, h, pyJoinNl]
  | cons l ls ih =>
      intro cur sz st h
      simp only [splitLoop]
      by_cases hc : decide ((sz : Int) + l.length > m) && !cur.isEmpty
      · simp only [hc, if_true, List.map_cons]
        have hne : (splitLoop m ls [l] l.length (st + cur.length)).map Prod.fst ≠ [] := by
          simpa using splitLoop_ne_nil m ls [l] l.length (st + cur.length) (by simp)
        cases hr : (splitLoop m ls [l] l.length (st + cur.length)).map Prod.fst with
        | nil => exact absurd hr hne
        | cons a as =>
            have hih := ih [l] l.length (st + cur.length) (by simp)
            rw [hr] at hih
            simp only [List.singleton_append] at hih
            calc pyJoinNl (pyJoinNl cur :: a :: as)
                = pyJoinNl cur ++ '\n' :: pyJoinNl (a :: as) := by simp [pyJoinNl]
              _ = pyJoinNl cur ++ '\n' :: pyJoinNl (l :: ls) := by rw [hih]
              _ = pyJoinNl (cur ++ l :: ls) := by
                    rw [pyJoinNl_append cur (l :: ls) h (by simp)]
      · simp only [hc, if_false]
        have := ih (cur ++ [l]) (sz + l.length) st (by simp)
        simpa using this

theorem noNl_mem_splitNl (cs : List Char) :
    ∀ l ∈ pySplitNlChars cs, '\n' ∉ l := by
  induction cs with
  | nil =>
      intro l hl
      simp [pySplitNlChars] at hl
      simp [hl]
  | cons c cs ih =>
      by_cases h : c = '\n'
      · subst h
        rw [pySplitNlChars_cons_nl]
        intro l hl
        rcases List.mem_cons.mp hl with h1 | h1
        · simp [h1]
        · exact ih l h1
      · rw [pySplitNlChars_cons_ne c cs h]
        cases hs : pySplitNlChars cs with
        | nil => exact absurd hs (pySplitNlChars_ne_nil cs)
        | cons a as =>
            show ∀ l ∈ (c :: a) :: as, '\n' ∉ l
            intro l hl
            rcases List.mem_cons.mp hl with h1 | h1
            · rw [h1]
              intro hm
              rcases List.mem_cons.mp hm with h2 | h2
              · exact h h2.symm
              · exact ih a (by rw [hs]; exact List.mem_cons_self a as) h2
            · exact ih l (by rw [hs]; exact List.mem_cons_of_mem a h1)

theorem splitNl_of_noNl (x : List Char) (h : '\n' ∉ x) :
    pySplitNlChars x = [x] := by
  induction x with
  | nil => rfl
  | cons c cs ih =>
      have hc : c ≠ '\n' := fun hcc => h (by simp [hcc])
      have hcs : '\n' ∉ cs := fun hm => h (by simp [hm])
      rw [pySplitNlChars_cons_ne c cs hc, ih hcs]
      rfl

theorem splitNl_append_nl (x t : List Char) (h : '\n' ∉ x) :
    pySplitNlChars (x ++ '\n' :: t) = x :: pySplitNlChars t := by
  induction x with
  | nil => simp [pySplitNlChars_cons_nl]
  | cons c cs ih =>
      have hc : c ≠ '\n' := fun hcc => h (by simp [hcc])
      have hcs : '\n' ∉ cs := fun hm => h (by simp [hm])
      rw [List.cons_append, pySplitNlChars_cons_ne c _ hc, ih hcs]
      rfl

theorem splitNl_joinNl (cur : List (List Char)) (hne : cur ≠ [])
    (hnl : ∀ x ∈ cur, '\n' ∉ x) :
    pySplitNlChars (pyJoinNl cur) = cur := by
  induction cur with
  | nil => exact absurd rfl hne
  | cons x xs ih =>
      cases xs with
      | nil => exact splitNl_of_noNl x (hnl x (by simp))
      | cons y ys =>
          have h1 : pyJoinNl (x :: y :: ys) = x ++ '\n' :: pyJoinNl (y :: ys) := rfl
          rw [h1, splitNl_append_nl x _ (hnl x (by simp))]
          rw [ih (by simp) (fun z hz => hnl z (by simp [hz]))]

/-- The starting-line discipline of a chunk list: the first chunk starts at
`n`, and each later chunk starts at the previous start plus the number of
lines of the previous chunk (internal character-list version). -/
def chunkStartsOkC : Nat → List (List Char × Nat) → Prop
  | _, [] => True
  | n, (t, s) :: rest => s = n ∧ chunkStartsOkC (n + (pySplitNlChars t).length) rest

/-- The starting-line discipline on the public chunk list: each chunk's
recorded start equals one plus the total line count of all chunks before it. -/
def chunkStartsOk : Nat → List (String × Nat) → Prop
  | _, [] => True
  | n, (t, s) :: rest => s = n ∧ chunkStartsOk (n + numLines t) rest

theorem splitLoop_starts (m : Int) (ls : List (List Char)) :
    ∀ (cur : List (List Char)) (sz st : Nat), cur ≠ [] →
    (∀ x ∈ cur, '\n' ∉ x) → (∀ x ∈ ls, '\n' ∉ x) →
    chunkStartsOkC st (splitLoop m ls cur sz st) := by
  induction ls with
  | nil =>
      intro cur sz st h _ _
      simp only [splitLoop, List.isEmpty_eq_true, h, if_false]
      exact ⟨rfl, trivial⟩
  | cons l ls ih =>
      intro cur sz st h hcur hls
      simp only [splitLoop]
      by_cases hc : decide ((sz : Int) + l.length > m) && !cur.isEmpty
      · simp only [hc, if_true]
        refine ⟨rfl, ?_⟩
        rw [splitNl_joinNl cur h hcur]
        exact ih [l] l.length (st + cur.length) (by simp)
          (by intro x hx; simp at hx; rw [hx]; exact hls l (by simp))
          (fun x hx => hls x (by simp [hx]))
      · simp only [hc, if_false]
        exact ih (cur ++ [l]) (sz + l.length) st (by simp)
          (by
            intro x hx
            rcases List.mem_append.mp hx with h1 | h1
            · exact hcur x h1
            · simp at h1; rw [h1]; exact hls l (by simp))
          (fun x hx => hls x (by simp [hx]))

theorem chunkStartsOk_map (n : Nat) (l : List (List Char × Nat)) :
    chunkStartsOk n (l.map (fun p => (String.mk p.1, p.2))) ↔ chunkStartsOkC n l := by
  induction l generalizing n with
  | nil => simp [chunkStartsOk, chunkStartsOkC]
  | cons p rest ih =>
      obtain ⟨t, s⟩ := p
      simp only [List.map_cons, chunkStartsOk, chunkStartsOkC, numLines]
      exact and_congr Iff.rfl (ih _)

/-- C8: for every code string and every `max_chunk_size`,
`split_code_into_chunks` partitions the input on line boundaries: joining
the chunk texts with a single newline reproduces the input exactly, and each
chunk's recorded starting line number equals one plus the total number of
lines in all preceding chunks. -/
theorem split_chunks_partition_and_starts (code : String) (max_chunk_size : Int) :
    String.mk (pyJoinNl ((split_code_into_chunks code max_chunk_size).map
        (fun c => c.1.data))) = code
    ∧ chunkStartsOk 1 (split_code_into_chunks code max_chunk_size) := by
  have hmap : (split_code_into_chunks code max_chunk_size).map (fun c => c.1.data)
      = (splitLoop max_chunk_size (pySplitNlChars code.data) [] 0 1).map Prod.fst := by
    simp [split_code_into_chunks, List.map_map, Function.comp]
  constructor
  · rw [hmap]
    cases hs : pySplitNlChars code.data with
    | nil => exact absurd hs (pySplitNlChars_ne_nil code.data)
    | cons l ls =>
        have hfirst : splitLoop max_chunk_size (l :: ls) [] 0 1
            = splitLoop max_chunk_size ls [l] l.length 1 := by
          simp [splitLoop]
        rw [hfirst, splitLoop_join max_chunk_size ls [l] l.length 1 (by simp)]
        have : pyJoinNl ([l] ++ ls) = code.data := by
          have := pyJoinNl_splitNl code.data
          rw [hs] at this
          simpa using this
        rw [this]
  · rw [split_code_into_chunks, chunkStartsOk_map]
    cases hs : pySplitNlChars code.data with
    | nil => exact absurd hs (pySplitNlChars_ne_nil code.data)
    | cons l ls =>
        have hfirst : splitLoop max_chunk_size (l :: ls) [] 0 1
            = splitLoop max_chunk_size ls [l] l.length 1 := by
          simp [splitLoop]
        rw [hfirst]
        have hnl := noNl_mem_splitNl code.data
        rw [hs] at hnl
        exact splitLoop_starts max_chunk_size ls [l] l.length 1 (by simp)
          (by intro x hx; simp at hx; rw [hx]; exact hnl l (by simp))
          (fun x hx => hnl x (by simp [hx]))

/-!
Claim C7: commit-message PR patterns and the generated PR URL.
-/

/-- C7: `get_commit_info` matches the latest commit message against the five
pull-request reference patterns in source order — `Merge pull request #N`
first, then `(#N)`, `#N`, `PR #N`, `pull/N` — and the first pattern that
matches anywhere in the stripped message supplies the captured number as
`pr_number`.  Concretely, the commit message `Fix bug (#42)` yields
`pr_number = "42"`, for a github.com repository URL `_generate_pr_url`
returns `https://github.com/org/repo/pull/42`, and an unrecognized provider
yields no URL. -/
theorem commit_pr_pattern_priority :
    (∀ msg n, searchFrom (fun _ cs => matchMergePr cs) true (pyStripString msg).data = some n →
        extract_pr_number msg = some n)
    ∧ (∀ msg n, searchFrom (fun _ cs => matchMergePr cs) true (pyStripString msg).data = none →
        searchFrom matchParenHash true (pyStripString msg).data = some n →
        extract_pr_number msg = some n)
    ∧ (∀ msg n, searchFrom (fun _ cs => matchMergePr cs) true (pyStripString msg).data = none →
        searchFrom matchParenHash true (pyStripString msg).data = none →
        searchFrom matchHash true (pyStripString msg).data = some n →
        extract_pr_number msg = some n)
    ∧ (∀ msg n, searchFrom (fun _ cs => matchMergePr cs) true (pyStripString msg).data = none →
        searchFrom matchParenHash true (pyStripString msg).data = none →
        searchFrom matchHash true (pyStripString msg).data = none →
        searchFrom (fun _ cs => matchPrSep cs) true (pyStripString msg).data = some n →
        extract_pr_number msg = some n)
    ∧ (∀ msg, searchFrom (fun _ cs => matchMergePr cs) true (pyStripString msg).data = none →
        searchFrom matchParenHash true (pyStripString msg).data = none →
        searchFrom matchHash true (pyStripString msg).data = none →
        searchFrom (fun _ cs => matchPrSep cs) true (pyStripString msg).data = none →
        extract_pr_number msg
          = searchFrom (fun _ cs => matchPullSlash cs) true (pyStripString msg).data)
    ∧ extract_pr_number "Fix bug (#42)" = some "42"
    ∧ dget (get_commit_info_dict "alice" "abc123" "Fix bug (#42)"
        "2024-01-01T00:00:00" (some "https://github.com/org/repo")) "pr_number"
        = some (.str "42")
    ∧ _generate_pr_url (get_commit_info_dict "alice" "abc123" "Fix bug (#42)"
        "2024-01-01T00:00:00" (some "https://github.com/org/repo"))
        = .ok (some "https://github.com/org/repo/pull/42")
    ∧ _generate_pr_url (get_commit_info_dict "alice" "abc123" "Fix bug (#42)"
        "2024-01-01T00:00:00" (some "https://gitlab.com/org/repo"))
        = .ok none := by
  refine ⟨?_, ?_, ?_, ?_, ?_, ?_, ?_, ?_, ?_⟩
  · intro msg n h1
    simp [extract_pr_number, h1]
  · intro msg n h1 h2
    simp [extract_pr_number, h1, h2]
  · intro msg n h1 h2 h3
    simp [extract_pr_number, h1, h2, h3]
  · intro msg n h1 h2 h3 h4
    simp [extract_pr_number, h1, h2, h3, h4]
  · intro msg h1 h2 h3 h4
    simp [extract_pr_number, h1, h2, h3, h4]
  · decide
  · rfl
  · rfl
  · rfl

/-- Witness for C7: the priority clauses applied at concrete commit messages
with their hypotheses discharged by evaluation. -/
theorem commit_pr_pattern_priority_witness :
    extract_pr_number "Merge pull request #7 from dev" = some "7"
    ∧ extract_pr_number "Fix bug (#42)" = some "42"
    ∧ extract_pr_number "touches #8" = some "8"
    ∧ extract_pr_number "PR-15" = some "15"
    ∧ extract_pr_number "see pull/99" = some "99" :=
  ⟨commit_pr_pattern_priority.1 "Merge pull request #7 from dev" "7" (by decide),
   commit_pr_pattern_priority.2.1 "Fix bug (#42)" "42" (by decide) (by decide),
   commit_pr_pattern_priority.2.2.1 "touches #8" "8" (by decide) (by decide) (by decide),
   commit_pr_pattern_priority.2.2.2.1 "PR-15" "15" (by decide) (by decide) (by decide)
     (by decide),
   by
     rw [commit_pr_pattern_priority.2.2.2.2.1 "see pull/99" (by decide) (by decide)
       (by decide) (by decide)]
     decide⟩

/-!
Claims C2 and C3: the two fallback paths of `_get_ai_code_review`.
-/

/-- The suggestion text of an issue (`issue['suggestion']['text']`). -/
def sugText (i : JsonDict) : Option Json :=
  match dget i "suggestion" with
  | some (.obj s) => dget s "text"
  | _ => none

theorem string_data_append (a b : String) : (a ++ b).data = a.data ++ b.data := rfl

/-- C2 (amended): on any transport/service failure `_get_ai_code_review`
does not raise — it returns exactly one issue tagged Critical Issue whose
message includes the error text; its suggestion text is the capitalized
string Manual review recommended (not the lowercase rendering the claim
quotes). -/
theorem ai_review_transport_failure_single_critical (e code language : String)
    (start_line : Int) (commit_info : JsonDict) :
    _get_ai_code_review (.error e) code language start_line commit_info
      = [criticalFallback e start_line commit_info]
    ∧ dget (criticalFallback e start_line commit_info) "type"
      = some (.str "Critical Issue")
    ∧ (∃ m, dget (criticalFallback e start_line commit_info) "message"
          = some (.str m)
        ∧ pyIn e m = true)
    ∧ sugText (criticalFallback e start_line commit_info)
      = some (.str "Manual review recommended") := by
  refine ⟨rfl, rfl, ⟨"AI Review Error: " ++ e, rfl, ?_⟩, rfl⟩
  show containsCh e.data ("AI Review Error: " ++ e).data = true
  rw [string_data_append]
  exact containsCh_append_left e.data ("AI Review Error: ".data)

/-- Counterexample for C2 as stated: at a concrete failing transport the
single Critical issue's suggestion text is the string
Manual review recommended, which is not the string
manual review recommended that the claim asserts. -/
theorem ai_review_suggestion_capitalization_cex :
    sugText ((_get_ai_code_review (.error "boom") "x = 1" "Python" 1 []).headI)
      = some (.str "Manual review recommended")
    ∧ sugText ((_get_ai_code_review (.error "boom") "x = 1" "Python" 1 []).headI)
      ≠ some (.str "manual review recommended") := by
  refine ⟨rfl, ?_⟩
  intro h
  rw [(rfl : sugText ((_get_ai_code_review (.error "boom") "x = 1" "Python" 1 []).headI)
      = some (.str "Manual review recommended"))] at h
  injection h with h1
  injection h1 with h2
  exact absurd h2 (by decide)

/-- C3 (amended): when the model response body is not parseable as JSON at
all (`json.loads` raises `JSONDecodeError`), `_get_ai_code_review` returns
exactly one issue tagged Best Practice whose line equals `start_line`,
whose code marker is the string Full file (not whole file), whose
suggestion text is the raw model response text, and which embeds the
original file content.  A response that parses as JSON but does not have
the expected structure instead produces the Critical fallback (see the
counterexample). -/
theorem ai_review_decode_failure_single_best_practice (raw code language : String)
    (start_line : Int) (commit_info : JsonDict) :
    _get_ai_code_review (.ok ⟨raw, none⟩) code language start_line commit_info
      = [bestPracticeFallback raw code start_line commit_info]
    ∧ dget (bestPracticeFallback raw code start_line commit_info) "type"
      = some (.str "Best Practice")
    ∧ dget (bestPracticeFallback raw code start_line commit_info) "line"
      = some (.num start_line)
    ∧ dget (bestPracticeFallback raw code start_line commit_info) "code"
      = some (.str "Full file")
    ∧ sugText (bestPracticeFallback raw code start_line commit_info)
      = some (.str raw)
    ∧ dget (bestPracticeFallback raw code start_line commit_info)
        "original_code_content" = some (.str code) :=
  ⟨rfl, rfl, rfl, rfl, rfl, rfl⟩

/-- Counterexample for C3 as stated: on a concrete not-decodable response
the single fallback issue's code marker is Full file, not whole file; and a
response that is valid JSON but not of the expected structure (here a JSON
array) yields a Critical Issue, not a BestPractice one. -/
theorem ai_review_fallback_marker_cex :
    ((_get_ai_code_review (.ok ⟨"oops", none⟩) "x = 1" "Python" 3 []).map
        (fun i => dget i "code") = [some (.str "Full file")])
    ∧ (Json.str "Full file" ≠ Json.str "whole file")
    ∧ ((_get_ai_code_review (.ok ⟨"[]", some (.arr [])⟩) "x = 1" "Python" 3 []).map
        (fun i => dget i "type") = [some (.str "Critical Issue")])
    ∧ (Json.str "Critical Issue" ≠ Json.str "Best Practice") := by
  refine ⟨rfl, ?_, rfl, ?_⟩
  · intro h; injection h with h1; exact absurd h1 (by decide)
  · intro h; injection h with h1; exact absurd h1 (by decide)

/-!
Claim C5: the chunk-start line shift on the successfully parsed path.
-/

theorem processIssue_line (s : Int) (ci : JsonDict) (d : JsonDict) (k : Int)
    (hline : dget d "line" = some (.num k)) (y : JsonDict)
    (hy : processIssue s ci (.obj d) = .ok y) :
    dget y "line" = some (.num (k + s - 1)) := by
  have h1 : dgetD d "line" (.num 1) = .num k := by simp [dgetD, hline]
  have hk : k + (s - 1) = k + s - 1 := by omega
  simp only [processIssue, h1, pyAddInt, bind, Except.bind] at hy
  by_cases hci : ci.isEmpty
  · simp only [hci, if_true] at hy
    cases hy
    rw [dget_dset_self, hk]
  · simp only [hci, if_false] at hy
    cases hpr : dget ci "pr_number" with
    | none =>
        rw [hpr] at hy
        cases hy
        rw [dget_dset_ne _ _ _ _ (by decide), dget_dset_self, hk]
    | some prv =>
        rw [hpr] at hy
        by_cases ht : truthy prv
        · simp only [ht, if_true] at hy
          cases hurl : _generate_pr_url ci with
          | error e => rw [hurl] at hy; cases hy
          | ok u =>
              rw [hurl] at hy
              simp only [bind, Except.bind] at hy
              cases hy
              rw [dget_dset_ne _ _ _ _ (by decide),
                dget_dset_ne _ _ _ _ (by decide), dget_dset_self, hk]
        · simp only [ht, if_false] at hy
          cases hy
          rw [dget_dset_ne _ _ _ _ (by decide), dget_dset_self, hk]

/-- C5: an issue whose chunk-relative parsed line number is `k`, processed
with chunk start `s`, is placed in the successfully parsed result of
`_get_ai_code_review` with file-absolute line number `k + s - 1`; the offset
is applied exactly once (the output lines are exactly the input lines
shifted by `s - 1`). -/
theorem parsed_issue_line_shift_exact (s : Int) (ci : JsonDict)
    (raw code language : String) (ds : List JsonDict) (ks : List Int)
    (es : List JsonDict)
    (hlines : List.Forall₂ (fun d k => dget d "line" = some (.num k)) ds ks)
    (hok : forIssues s ci (.arr (ds.map Json.obj)) = .ok es) :
    _get_ai_code_review (.ok ⟨raw, some (.obj [("issues", .arr (ds.map Json.obj))])⟩)
        code language s ci = es
    ∧ es.map (fun i => dget i "line") = ks.map (fun k => some (.num (k + s - 1))) := by
  constructor
  · simp only [_get_ai_code_review, pyDictGet, dgetD, dget, List.find?,
      beq_self_eq_true, Option.map_some', Option.getD_some, bind, Except.bind]
    rw [hok]
  · induction hlines generalizing es with
    | nil =>
        simp only [forIssues, List.map_nil, mapExcept] at hok
        cases hok
        rfl
    | cons hd htail ih =>
        rename_i d k ds' ks'
        simp only [forIssues, List.map_cons, mapExcept] at hok
        cases hy : processIssue s ci (.obj d) with
        | error e => rw [hy] at hok; cases hok
        | ok y =>
            rw [hy] at hok
            simp only [bind, Except.bind] at hok
            cases hys : mapExcept (processIssue s ci) (ds'.map Json.obj) with
            | error e => rw [hys] at hok; cases hok
            | ok ys =>
                rw [hys] at hok
                cases hok
                have h1 := processIssue_line s ci d k hd y hy
                have h2 := ih ys (by simpa [forIssues] using hys)
                simp [h1, h2]

/-- Witness for C5: a parsed issue at chunk-relative line 3 with chunk start
10 lands at file-absolute line 12. -/
theorem parsed_issue_line_shift_exact_witness :
    _get_ai_code_review
        (.ok ⟨"raw", some (.obj [("issues", .arr [Json.obj [("line", Json.num 3)]])])⟩)
        "x = 1" "Python" 10 [] = [[("line", Json.num 12)]]
    ∧ ([[(("line" : String), Json.num 12)]] : List JsonDict).map (fun i => dget i "line")
      = ([3] : List Int).map (fun k => some (Json.num (k + 10 - 1))) :=
  parsed_issue_line_shift_exact 10 [] "raw" "x = 1" "Python"
    [[("line", .num 3)]] [3] [[("line", .num 12)]]
    (List.Forall₂.cons rfl List.Forall₂.nil) rfl

/-!
Deduplication and stable-sort machinery for claims C4, C6, C9.

`keepFirstByKey` is written from the specification's words — keep only the
first occurrence of each `(line number, first 100 characters of message)`
key — and proved equal to the seen-set implementation `_deduplicate_issues`
whenever the keys are computable (string-or-absent messages, hashable line
values).
-/

/-- Total hash-key view (meaningful on hashable values; the containers are
mapped to an arbitrary value and excluded by `lineHashable` below). -/
def hkeyTotal : Json → HKey
  | .null => .null
  | .bool b => .num (if b then 1 else 0)
  | .num n => .num n
  | .str s => .str s
  | .arr _ => .null
  | .obj _ => .null

/-- The dedup key of the specification: the line number paired with the
first 100 characters of the message. -/
def specKey (i : JsonDict) : Option HKey × String :=
  ((dget i "line").map hkeyTotal,
   match dgetD i "message" (.str "") with
   | .str s => String.mk (s.data.take 100)
   | _ => "")

/-- The message is text (or absent), so its slice is computable. -/
def msgTextual (i : JsonDict) : Bool :=
  match dget i "message" with
  | none => true
  | some (.str _) => true
  | _ => false

/-- The line value is hashable (or absent). -/
def lineHashable (i : JsonDict) : Bool :=
  match dget i "line" with
  | none => true
  | some (.arr _) => false
  | some (.obj _) => false
  | some _ => true

theorem dedupKeyE_eq_specKey (i : JsonDict) (hm : msgTextual i = true)
    (hl : lineHashable i = true) : dedupKeyE i = .ok (specKey i) := by
  unfold msgTextual at hm
  unfold lineHashable at hl
  unfold dedupKeyE specKey
  cases hmsg : dget i "message" with
  | none =>
      cases hline : dget i "line" with
      | none => simp [dgetD, hmsg, hline, sliceKey, bind, Except.bind, pure, Except.pure]
      | some v =>
          rw [hline] at hl
          cases v <;> simp_all [dgetD, hmsg, sliceKey, hkeyOf, hkeyTotal,
            bind, Except.bind, Except.map]
  | some m =>
      rw [hmsg] at hm
      cases m with
      | str s =>
          cases hline : dget i "line" with
          | none => simp [dgetD, hmsg, hline, sliceKey, bind, Except.bind, pure, Except.pure]
          | some v =>
              rw [hline] at hl
              cases v <;> simp_all [dgetD, hmsg, sliceKey, hkeyOf, hkeyTotal,
                bind, Except.bind, Except.map]
      | null => simp at hm
      | bool b => simp at hm
      | num n => simp at hm
      | arr xs => simp at hm
      | obj kvs => simp at hm

/-- The seen-set loop expressed with total keys. -/
def kfAux (seen : List (Option HKey × String)) : List JsonDict → List JsonDict
  | [] => []
  | i :: rest =>
      if specKey i ∈ seen then kfAux seen rest
      else i :: kfAux (specKey i :: seen) rest

theorem dedupAux_eq_kfAux (l : List JsonDict)
    (h : ∀ i ∈ l, dedupKeyE i = .ok (specKey i)) :
    ∀ seen, dedupAux seen l = .ok (kfAux seen l) := by
  induction l with
  | nil => intro seen; rfl
  | cons i rest ih =>
      intro seen
      have hi := h i (by simp)
      have hrest : ∀ j ∈ rest, dedupKeyE j = .ok (specKey j) :=
        fun j hj => h j (by simp [hj])
      simp only [dedupAux, kfAux, hi, bind, Except.bind]
      by_cases hk : specKey i ∈ seen
      · simp only [hk, if_true]
        exact ih hrest seen
      · simp only [hk, if_false]
        rw [ih hrest (specKey i :: seen)]

/-- Specification deduplication: keep only the first occurrence of each
key, in order. -/
def keepFirstByKey : List JsonDict → List JsonDict
  | [] => []
  | i :: rest =>
      i :: keepFirstByKey (rest.filter (fun j => decide (specKey j ≠ specKey i)))
termination_by l => l.length
decreasing_by
  simp only [List.length_cons]
  exact Nat.lt_succ_of_le (List.length_filter_le _ _)

theorem kfAux_eq_keepFirst (l : List JsonDict) :
    ∀ seen, kfAux seen l
      = keepFirstByKey (l.filter (fun j => decide (specKey j ∉ seen))) := by
  induction l with
  | nil => intro seen; simp [kfAux, keepFirstByKey]
  | cons i rest ih =>
      intro seen
      by_cases hk : specKey i ∈ seen
      · simp only [kfAux, hk, if_true]
        rw [ih seen]
        congr 1
        simp [List.filter_cons, hk]
      · simp only [kfAux, hk, if_false]
        rw [ih (specKey i :: seen)]
        have hfil : (i :: rest).filter (fun j => decide (specKey j ∉ seen))
            = i :: rest.filter (fun j => decide (specKey j ∉ seen)) := by
          simp [List.filter_cons, hk]
        rw [hfil]
        rw [keepFirstByKey]
        rw [List.filter_filter]
        have hpt : rest.filter (fun j => decide (specKey j ∉ specKey i :: seen))
            = rest.filter
                (fun a => decide (specKey a ≠ specKey i) && decide (specKey a ∉ seen)) := by
          apply List.filter_congr
          intro j _
          by_cases h1 : specKey j = specKey i <;> by_cases h2 : specKey j ∈ seen <;>
            simp [h1, h2]
        rw [hpt]

/-- `_deduplicate_issues` computes the specification's first-occurrence
filter whenever every key is computable. -/
theorem deduplicate_eq_keepFirst (l : List JsonDict)
    (h : ∀ i ∈ l, dedupKeyE i = .ok (specKey i)) :
    _deduplicate_issues l = .ok (keepFirstByKey l) := by
  rw [_deduplicate_issues, dedupAux_eq_kfAux l h [], kfAux_eq_keepFirst l []]
  congr 2
  simp

/-- Whatever `_deduplicate_issues` keeps was in its input. -/
theorem mem_of_dedupAux (l : List JsonDict) :
    ∀ seen r, dedupAux seen l = .ok r → ∀ x ∈ r, x ∈ l := by
  induction l with
  | nil =>
      intro seen r h x hx
      simp only [dedupAux] at h
      cases h
      simp at hx
  | cons i rest ih =>
      intro seen r h x hx
      simp only [dedupAux, bind, Except.bind] at h
      cases hkey : dedupKeyE i with
      | error e => rw [hkey] at h; cases h
      | ok k =>
          rw [hkey] at h
          by_cases hk : k ∈ seen
          · simp only [hk, if_true] at h
            exact List.mem_cons_of_mem i (ih seen r h x hx)
          · simp only [hk, if_false] at h
            cases hrec : dedupAux (k :: seen) rest with
            | error e => rw [hrec] at h; cases h
            | ok r2 =>
                rw [hrec] at h
                cases h
                rcases List.mem_cons.mp hx with h1 | h1
                · simp [h1]
                · exact List.mem_cons_of_mem i (ih (k :: seen) r2 hrec x h1)

/-!
Stable-sort lemmas for `insertionSortLine`, and the invariant that every
issue leaving `_get_ai_code_review` carries a numeric line.
-/

theorem mem_ordInsert (i x : JsonDict) (l : List JsonDict) :
    x ∈ ordInsertLine i l ↔ x = i ∨ x ∈ l := by
  induction l with
  | nil => simp [ordInsertLine]
  | cons h t ih =>
      by_cases hc : lineInt i ≤ lineInt h
      · simp [ordInsertLine, hc, List.mem_cons]
      · simp only [ordInsertLine, hc, if_false, List.mem_cons, ih]
        tauto

theorem pairwise_ordInsert (i : JsonDict) (l : List JsonDict)
    (h : List.Pairwise (fun a b => lineInt a ≤ lineInt b) l) :
    List.Pairwise (fun a b => lineInt a ≤ lineInt b) (ordInsertLine i l) := by
  induction l with
  | nil => simp [ordInsertLine]
  | cons hd t ih =>
      rcases List.pairwise_cons.mp h with ⟨hhd, ht⟩
      by_cases hc : lineInt i ≤ lineInt hd
      · simp only [ordInsertLine, hc, if_true]
        refine List.pairwise_cons.mpr ⟨?_, h⟩
        intro x hx
        rcases List.mem_cons.mp hx with h1 | h1
        · rw [h1]; exact hc
        · exact le_trans hc (hhd x h1)
      · simp only [ordInsertLine, hc, if_false]
        refine List.pairwise_cons.mpr ⟨?_, ih ht⟩
        intro x hx
        rcases (mem_ordInsert i x t).mp hx with h1 | h1
        · rw [h1]; exact le_of_lt (lt_of_not_le hc)
        · exact hhd x h1

theorem insertionSortLine_pairwise (l : List JsonDict) :
    List.Pairwise (fun a b => lineInt a ≤ lineInt b) (insertionSortLine l) := by
  induction l with
  | nil => simp [insertionSortLine]
  | cons h t ih => exact pairwise_ordInsert h (insertionSortLine t) ih

theorem filter_ordInsert_eq (i : JsonDict) (l : List JsonDict) (v : Int)
    (hv : lineInt i = v) :
    (ordInsertLine i l).filter (fun x => lineInt x == v)
      = i :: l.filter (fun x => lineInt x == v) := by
  induction l with
  | nil => simp [ordInsertLine, List.filter_cons, hv]
  | cons h t ih =>
      by_cases hc : lineInt i ≤ lineInt h
      · rw [ordInsertLine, if_pos hc]
        simp [List.filter_cons, hv]
      · rw [ordInsertLine, if_neg hc]
        have hlt : lineInt h < lineInt i := lt_of_not_le hc
        have hne : (lineInt h == v) = false := by
          rw [hv] at hlt
          simp only [beq_eq_false_iff_ne, ne_eq]
          omega
        simp [List.filter_cons, hne, ih]

theorem filter_ordInsert_ne (i : JsonDict) (l : List JsonDict) (v : Int)
    (hv : lineInt i ≠ v) :
    (ordInsertLine i l).filter (fun x => lineInt x == v)
      = l.filter (fun x => lineInt x == v) := by
  induction l with
  | nil => simp [ordInsertLine, List.filter_cons, hv]
  | cons h t ih =>
      by_cases hc : lineInt i ≤ lineInt h
      · rw [ordInsertLine, if_pos hc]
        simp [List.filter_cons, hv]
      · rw [ordInsertLine, if_neg hc]
        simp only [List.filter_cons]
        rw [ih]

theorem insertionSortLine_filter (l : List JsonDict) (v : Int) :
    (insertionSortLine l).filter (fun x => lineInt x == v)
      = l.filter (fun x => lineInt x == v) := by
  induction l with
  | nil => rfl
  | cons h t ih =>
      by_cases hv : lineInt h = v
      · rw [insertionSortLine, filter_ordInsert_eq h _ v hv, ih,
          List.filter_cons]
        simp [hv]
      · rw [insertionSortLine, filter_ordInsert_ne h _ v hv, ih,
          List.filter_cons]
        simp [hv]

theorem mem_insertionSortLine (l : List JsonDict) :
    ∀ x ∈ insertionSortLine l, x ∈ l := by
  induction l with
  | nil => intro x hx; simpa [insertionSortLine] using hx
  | cons h t ih =>
      intro x hx
      rw [insertionSortLine] at hx
      rcases (mem_ordInsert h x (insertionSortLine t)).mp hx with h1 | h1
      · simp [h1]
      · exact List.mem_cons_of_mem h (ih x h1)

theorem mem_mapExcept (f : α → Except String β) (xs : List α) :
    ∀ ys, mapExcept f xs = .ok ys → ∀ y ∈ ys, ∃ x ∈ xs, f x = .ok y := by
  induction xs with
  | nil =>
      intro ys h y hy
      simp only [mapExcept] at h
      cases h
      simp at hy
  | cons x xs ih =>
      intro ys h y hy
      simp only [mapExcept, bind, Except.bind] at h
      cases hx : f x with
      | error e => rw [hx] at h; cases h
      | ok y0 =>
          rw [hx] at h
          cases hrest : mapExcept f xs with
          | error e => rw [hrest] at h; cases h
          | ok ys0 =>
              rw [hrest] at h
              cases h
              rcases List.mem_cons.mp hy with h1 | h1
              · exact ⟨x, by simp, by rw [hx, h1]⟩
              · rcases ih ys0 hrest y h1 with ⟨x1, hx1, hfx1⟩
                exact ⟨x1, by simp [hx1], hfx1⟩

theorem processIssue_line_num (s : Int) (ci : JsonDict) (j : Json)
    (y : JsonDict) (hy : processIssue s ci j = .ok y) :
    ∃ n : Int, dget y "line" = some (.num n) := by
  cases j with
  | obj d =>
      simp only [processIssue, bind, Except.bind] at hy
      cases hadd : pyAddInt (dgetD d "line" (.num 1)) (s - 1) with
      | error e => rw [hadd] at hy; cases hy
      | ok shifted =>
          rw [hadd] at hy
          have hnum : ∃ n : Int, shifted = .num n := by
            cases hv : dgetD d "line" (.num 1) with
            | num n =>
                rw [hv] at hadd
                simp only [pyAddInt] at hadd
                cases hadd
                exact ⟨_, rfl⟩
            | bool b =>
                rw [hv] at hadd
                simp only [pyAddInt] at hadd
                cases hadd
                exact ⟨_, rfl⟩
            | null => rw [hv] at hadd; simp [pyAddInt] at hadd
            | str s2 => rw [hv] at hadd; simp [pyAddInt] at hadd
            | arr xs => rw [hv] at hadd; simp [pyAddInt] at hadd
            | obj kvs => rw [hv] at hadd; simp [pyAddInt] at hadd
          rcases hnum with ⟨n, rfl⟩
          refine ⟨n, ?_⟩
          by_cases hci : ci.isEmpty
          · simp only [hci, if_true] at hy
            cases hy
            exact dget_dset_self _ _ _
          · simp only [hci, if_false] at hy
            cases hpr : dget ci "pr_number" with
            | none =>
                rw [hpr] at hy
                cases hy
                rw [dget_dset_ne _ _ _ _ (by decide)]
                exact dget_dset_self _ _ _
            | some prv =>
                rw [hpr] at hy
                by_cases ht : truthy prv
                · simp only [ht, if_true] at hy
                  cases hurl : _generate_pr_url ci with
                  | error e => rw [hurl] at hy; cases hy
                  | ok u =>
                      rw [hurl] at hy
                      simp only [bind, Except.bind] at hy
                      cases hy
                      rw [dget_dset_ne _ _ _ _ (by decide),
                        dget_dset_ne _ _ _ _ (by decide)]
                      exact dget_dset_self _ _ _
                · simp only [ht, if_false] at hy
                  cases hy
                  rw [dget_dset_ne _ _ _ _ (by decide)]
                  exact dget_dset_self _ _ _
  | null => simp [processIssue] at hy
  | bool b => simp [processIssue] at hy
  | num n => simp [processIssue] at hy
  | str s2 => simp [processIssue] at hy
  | arr xs => simp [processIssue] at hy

/-- Every issue `_get_ai_code_review` returns carries a numeric line. -/
theorem ai_review_line_num (transport : Except String ModelResponse)
    (code language : String) (s : Int) (ci : JsonDict) :
    ∀ i ∈ _get_ai_code_review transport code language s ci,
      ∃ n : Int, dget i "line" = some (.num n) := by
  intro i hi
  cases transport with
  | error e =>
      simp only [_get_ai_code_review, List.mem_singleton] at hi
      exact ⟨s, by rw [hi]; rfl⟩
  | ok resp =>
      cases hp : resp.parsed with
      | none =>
          simp only [_get_ai_code_review, hp, List.mem_singleton] at hi
          exact ⟨s, by rw [hi]; rfl⟩
      | some j =>
          simp only [_get_ai_code_review, hp, bind, Except.bind] at hi
          cases hg : pyDictGet j "issues" (.arr []) with
          | error e =>
              simp only [hg] at hi
              simp only [List.mem_singleton] at hi
              exact ⟨s, by rw [hi]; rfl⟩
          | ok issuesJ =>
              simp only [hg] at hi
              cases hf : forIssues s ci issuesJ with
              | error e =>
                  simp only [hf] at hi
                  simp only [List.mem_singleton] at hi
                  exact ⟨s, by rw [hi]; rfl⟩
              | ok processed =>
                  simp only [hf] at hi
                  cases issuesJ with
                  | arr xs =>
                      simp only [forIssues] at hf
                      rcases mem_mapExcept _ xs processed hf i hi with ⟨x, _, hfx⟩
                      exact processIssue_line_num s ci x i hfx
                  | str s2 =>
                      simp only [forIssues] at hf
                      by_cases hs2 : s2.data.isEmpty
                      · simp only [hs2, if_true] at hf; cases hf; simp at hi
                      · simp only [hs2, if_false] at hf; cases hf
                  | obj kvs =>
                      simp only [forIssues] at hf
                      by_cases hkvs : kvs.isEmpty
                      · simp only [hkvs, if_true] at hf; cases hf; simp at hi
                      · simp only [hkvs, if_false] at hf; cases hf
                  | null => simp [forIssues] at hf
                  | bool b => simp [forIssues] at hf
                  | num n => simp [forIssues] at hf

theorem dget_enrich_ne (c : String) (i : JsonDict) (k : String)
    (h : k ≠ "original_code_content") :
    dget (enrichIssue c i) k = dget i k := by
  unfold enrichIssue
  by_cases hm : dmem "original_code_content" i
  · simp [hm]
  · simp only [hm, Bool.false_eq_true, if_false]
    exact dget_dset_ne i k "original_code_content" _ (Ne.symm h)

theorem dmem_enrich (c : String) (i : JsonDict) :
    dmem "original_code_content" (enrichIssue c i) = true := by
  unfold enrichIssue
  by_cases hm : dmem "original_code_content" i
  · simp [hm]
  · simp only [hm, Bool.false_eq_true, if_false]
    exact dmem_dset_self i "original_code_content" _

/-!
Claim C4: `review_code` deduplicates by the `(line, first 100 message
characters)` key keeping first occurrences, then stably sorts by line.
-/

/-- C4: for every issue list obtained from the LLM review client (whose
messages are text, per the data model) and every non-blank code content, the
list `review_code` returns is that issue list — enriched in place with the
file content, as the client's dictionaries are mutated — first deduplicated
by the key `(line number, first 100 characters of message)` keeping only the
first occurrence of each key (`keepFirstByKey`, written from the
specification), then stably sorted in non-decreasing line order: the result
is sorted, and filtering any line value preserves the deduplicated list's
relative order.  Issues whose messages differ within the first 100
characters have different keys and are both retained. -/
theorem review_code_dedup_then_stable_sort (transport : Except String ModelResponse)
    (ci : JsonDict) (code_content language : String)
    (hb : (pyStripString code_content == "") = false)
    (hmsg : ∀ i ∈ _get_ai_code_review transport code_content language 1 ci,
      msgTextual i = true) :
    review_code transport ci code_content language
      = insertionSortLine (keepFirstByKey
          ((_get_ai_code_review transport code_content language 1 ci).map
            (enrichIssue code_content)))
    ∧ List.Pairwise (fun a b => lineInt a ≤ lineInt b)
        (review_code transport ci code_content language)
    ∧ ∀ v : Int,
        (review_code transport ci code_content language).filter
            (fun i => lineInt i == v)
        = (keepFirstByKey
            ((_get_ai_code_review transport code_content language 1 ci).map
              (enrichIssue code_content))).filter (fun i => lineInt i == v) := by
  have hkeys : ∀ i ∈ (_get_ai_code_review transport code_content language 1 ci).map
      (enrichIssue code_content), dedupKeyE i = .ok (specKey i) := by
    intro i hi
    rcases List.mem_map.mp hi with ⟨i0, hi0, rfl⟩
    apply dedupKeyE_eq_specKey
    · unfold msgTextual
      rw [dget_enrich_ne code_content i0 "message" (by decide)]
      have := hmsg i0 hi0
      unfold msgTextual at this
      exact this
    · unfold lineHashable
      rw [dget_enrich_ne code_content i0 "line" (by decide)]
      rcases ai_review_line_num transport code_content language 1 ci i0 hi0 with ⟨n, hn⟩
      rw [hn]
  have hded := deduplicate_eq_keepFirst _ hkeys
  have hsub : ∀ i ∈ keepFirstByKey
      ((_get_ai_code_review transport code_content language 1 ci).map
        (enrichIssue code_content)),
      i ∈ (_get_ai_code_review transport code_content language 1 ci).map
        (enrichIssue code_content) := by
    intro i hi
    exact mem_of_dedupAux _ [] _ hded i hi
  have hguard : (keepFirstByKey
      ((_get_ai_code_review transport code_content language 1 ci).map
        (enrichIssue code_content))).all
      (fun i => (jnumOf (dgetD i "line" (.num 0))).isSome) = true := by
    rw [List.all_eq_true]
    intro i hi
    rcases List.mem_map.mp (hsub i hi) with ⟨i0, hi0, rfl⟩
    rcases ai_review_line_num transport code_content language 1 ci i0 hi0 with ⟨n, hn⟩
    have : dget (enrichIssue code_content i0) "line" = some (.num n) := by
      rw [dget_enrich_ne code_content i0 "line" (by decide)]; exact hn
    simp [dgetD, this, jnumOf]
  have hrc : review_code transport ci code_content language
      = insertionSortLine (keepFirstByKey
          ((_get_ai_code_review transport code_content language 1 ci).map
            (enrichIssue code_content))) := by
    rw [review_code]
    simp only [hb, Bool.false_eq_true, if_false]
    rw [reviewPost, hded]
    simp only [pySortedByLine, hguard, if_true]
  refine ⟨hrc, ?_, ?_⟩
  · rw [hrc]; exact insertionSortLine_pairwise _
  · intro v; rw [hrc, insertionSortLine_filter]

/-- Witness for C4: a concrete failing transport yields the single Critical
fallback, and the equations of the claim hold for it. -/
theorem review_code_dedup_then_stable_sort_witness :
    review_code (.error "boom") [] "x = 1" "Python"
      = insertionSortLine (keepFirstByKey
          ((_get_ai_code_review (.error "boom") "x = 1" "Python" 1 []).map
            (enrichIssue "x = 1")))
    ∧ List.Pairwise (fun a b => lineInt a ≤ lineInt b)
        (review_code (.error "boom") [] "x = 1" "Python")
    ∧ ∀ v : Int,
        (review_code (.error "boom") [] "x = 1" "Python").filter
            (fun i => lineInt i == v)
        = (keepFirstByKey
            ((_get_ai_code_review (.error "boom") "x = 1" "Python" 1 []).map
              (enrichIssue "x = 1"))).filter (fun i => lineInt i == v) :=
  review_code_dedup_then_stable_sort (.error "boom") [] "x = 1" "Python"
    (by decide) (by decide)

/-!
Claim C9: the concrete deduplication scenario.  The two messages
Unused variable x and Unused variable x in loop are both shorter than 100
characters and differ, so their `[:100]` slices differ and the two issues
have different keys: both are retained.
-/

/-- Counterexample for C9 as stated: with the two issues of the claim at the
same line, `_deduplicate_issues` keeps both (their first-100-character
message prefixes are not identical), so the output does not have exactly
one element. -/
theorem dedup_both_retained_cex :
    _deduplicate_issues
        [[("line", Json.num 10), ("message", Json.str "Unused variable x")],
         [("line", Json.num 10), ("message", Json.str "Unused variable x in loop")]]
      = .ok [[("line", Json.num 10), ("message", Json.str "Unused variable x")],
             [("line", Json.num 10), ("message", Json.str "Unused variable x in loop")]]
    ∧ ([[("line", Json.num 10), ("message", Json.str "Unused variable x")],
        [("line", Json.num 10),
         ("message", Json.str "Unused variable x in loop")]] : List JsonDict).length
      ≠ 1 := by
  refine ⟨rfl, ?_⟩
  decide

/-- C9 (amended): the two issues of the scenario have different keys —
their messages differ within the first 100 characters — so deduplication
retains both; only a pair whose messages agree on the whole first 100
characters collapses to the first occurrence. -/
theorem dedup_distinct_prefix_behavior :
    (_deduplicate_issues
        [[("line", Json.num 10), ("message", Json.str "Unused variable x")],
         [("line", Json.num 10), ("message", Json.str "Unused variable x in loop")]]
      = .ok [[("line", Json.num 10), ("message", Json.str "Unused variable x")],
             [("line", Json.num 10), ("message", Json.str "Unused variable x in loop")]])
    ∧ specKey [("line", Json.num 10), ("message", Json.str "Unused variable x")]
      ≠ specKey [("line", Json.num 10), ("message", Json.str "Unused variable x in loop")]
    ∧ ∀ (l : Int) (m1 m2 : String), m1.data.take 100 = m2.data.take 100 →
        _deduplicate_issues
            [[("line", Json.num l), ("message", Json.str m1)],
             [("line", Json.num l), ("message", Json.str m2)]]
          = .ok [[("line", Json.num l), ("message", Json.str m1)]] := by
  refine ⟨rfl, by decide, ?_⟩
  intro l m1 m2 h
  have hk2 : dedupKeyE [("line", Json.num l), ("message", Json.str m2)]
      = .ok (some (.num l), String.mk (m1.data.take 100)) := by
    simp [dedupKeyE, sliceKey, hkeyOf, dgetD, dget, List.find?, bind,
      Except.bind, Except.map, h]
  have hk1 : dedupKeyE [("line", Json.num l), ("message", Json.str m1)]
      = .ok (some (.num l), String.mk (m1.data.take 100)) := by
    simp [dedupKeyE, sliceKey, hkeyOf, dgetD, dget, List.find?, bind,
      Except.bind, Except.map]
  simp [_deduplicate_issues, dedupAux, hk1, hk2, bind, Except.bind]

/-- Witness for C9: a pair of messages that really agree on their first 100
characters (100 copies of the letter a followed by different tails)
collapses to the first issue. -/
theorem dedup_distinct_prefix_behavior_witness :
    _deduplicate_issues
        [[("line", Json.num 4),
          ("message", Json.str (String.mk (List.replicate 100 'a') ++ "x"))],
         [("line", Json.num 4),
          ("message", Json.str (String.mk (List.replicate 100 'a') ++ "y"))]]
      = .ok [[("line", Json.num 4),
              ("message", Json.str (String.mk (List.replicate 100 'a') ++ "x"))]] :=
  dedup_distinct_prefix_behavior.2.2 4
    (String.mk (List.replicate 100 'a') ++ "x")
    (String.mk (List.replicate 100 'a') ++ "y") (by decide)

/-!
Claim C6: enrichment with `original_code_content`.  It holds on every path
except the exception handler of `review_code` itself (lines 400–411), whose
generic Critical issue carries no `original_code_content` — reachable, for
instance, when a parsed issue's `message` is a number, which makes the
dedup-key slice raise inside the `try`.
-/

/-- C6 (amended): whenever `review_code`'s own exception handler is not
triggered (the deduplication of the enriched issues succeeds), every issue
in the returned list carries `original_code_content` — filled with the full
reviewed file text when the LLM client did not set it.  The single issue
produced by the exception handler itself does not carry the field (see the
counterexample). -/
theorem review_code_original_content_enrichment
    (transport : Except String ModelResponse) (ci : JsonDict)
    (code_content language : String) (u : List JsonDict)
    (hded : _deduplicate_issues
        ((_get_ai_code_review transport code_content language 1 ci).map
          (enrichIssue code_content)) = .ok u) :
    ∀ i ∈ review_code transport ci code_content language,
      dmem "original_code_content" i = true := by
  intro i hi
  rw [review_code] at hi
  by_cases hb : (pyStripString code_content == "") = true
  · rw [if_pos hb] at hi
    simp at hi
  · rw [if_neg (by simpa using hb)] at hi
    rw [reviewPost] at hi
    simp only [hded] at hi
    have hguard : u.all (fun j => (jnumOf (dgetD j "line" (.num 0))).isSome) = true := by
      rw [List.all_eq_true]
      intro j hj
      have hj2 := mem_of_dedupAux _ [] u hded j hj
      rcases List.mem_map.mp hj2 with ⟨j0, hj0, rfl⟩
      rcases ai_review_line_num transport code_content language 1 ci j0 hj0 with ⟨n, hn⟩
      have : dget (enrichIssue code_content j0) "line" = some (.num n) := by
        rw [dget_enrich_ne code_content j0 "line" (by decide)]; exact hn
      simp [dgetD, this, jnumOf]
    unfold pySortedByLine at hi
    simp only [hguard, if_true] at hi
    have hmem : i ∈ u := mem_insertionSortLine u i hi
    have hmem2 := mem_of_dedupAux _ [] u hded i hmem
    rcases List.mem_map.mp hmem2 with ⟨i0, _, rfl⟩
    exact dmem_enrich code_content i0

/-- Witness for C6: on a concrete failed transport the returned Critical
fallback is enriched with the file content. -/
theorem review_code_original_content_enrichment_witness :
    ((review_code (.error "boom") [] "x = 1" "Python").all
      (fun i => dmem "original_code_content" i)) = true := by
  rw [List.all_eq_true]
  intro i hi
  exact review_code_original_content_enrichment (.error "boom") [] "x = 1" "Python"
    _ rfl i hi

/-- Counterexample for C6 as stated: a model response whose parsed issue has
a numeric `message` passes `_get_ai_code_review`, but slicing the message in
the dedup key raises inside `review_code`'s `try`; the handler of
lines 400–411 returns a single, non-empty issue list whose issue carries no
`original_code_content`. -/
theorem review_code_error_path_missing_content_cex :
    (review_code
        (.ok ⟨"resp", some (.obj [("issues",
          .arr [Json.obj [("line", Json.num 2), ("message", Json.num 5)]])])⟩)
        [] "x = 1" "Python").length = 1
    ∧ ((review_code
        (.ok ⟨"resp", some (.obj [("issues",
          .arr [Json.obj [("line", Json.num 2), ("message", Json.num 5)]])])⟩)
        [] "x = 1" "Python").all
      (fun i => dmem "original_code_content" i)) = false := by
  refine ⟨rfl, rfl⟩

/-!
Claim C1: the coordinator returns exactly one record per descriptor.
-/

/-- C1: for every environment, every descriptor list and every completion
order (a permutation of the submitted futures, as
`concurrent.futures.as_completed` yields them) and every
`max_workers ≥ 1`, `review_files_parallel` returns exactly one record per
input descriptor; every descriptor's record appears in the output, and a
task whose body raises contributes a record carrying that file's relative
path, the error string, and `issues_count = 0` — without preventing any
other record. -/
theorem review_files_parallel_complete (env : TaskEnv)
    (files order : List FileInfo) (max_workers : Nat)
    (hmw : 1 ≤ max_workers) (hperm : order.Perm files) :
    (review_files_parallel env files max_workers order).length = files.length
    ∧ (∀ fi ∈ files,
        review_file env fi ∈ review_files_parallel env files max_workers order)
    ∧ (∀ fi e, taskBody env fi = .error e →
        dget (review_file env fi) "file" = some (.str fi.relative_path)
        ∧ dget (review_file env fi) "error" = some (.str e)
        ∧ dget (review_file env fi) "issues_count" = some (.num 0)) := by
  refine ⟨?_, ?_, ?_⟩
  · rw [review_files_parallel, List.length_map]
    exact hperm.length_eq
  · intro fi hfi
    rw [review_files_parallel]
    exact List.mem_map_of_mem (review_file env) (hperm.mem_iff.mpr hfi)
  · intro fi e he
    rw [review_file, he]
    exact ⟨rfl, rfl, rfl⟩

/-- Witness for C1: one descriptor whose file read fails; the single record
carries the path, the error and a zero issue count. -/
theorem review_files_parallel_complete_witness :
    (review_files_parallel
        ⟨fun _ => [], fun _ => .error "io error", fun _ => .error "net"⟩
        [⟨"a.py", "/repo/a.py"⟩] 1 [⟨"a.py", "/repo/a.py"⟩]).length = 1
    ∧ dget (review_file
        ⟨fun _ => [], fun _ => .error "io error", fun _ => .error "net"⟩
        ⟨"a.py", "/repo/a.py"⟩) "error" = some (.str "io error") := by
  refine ⟨?_, ?_⟩
  · exact (review_files_parallel_complete
      ⟨fun _ => [], fun _ => .error "io error", fun _ => .error "net"⟩
      [⟨"a.py", "/repo/a.py"⟩] [⟨"a.py", "/repo/a.py"⟩] 1 (by decide)
      (List.Perm.refl _)).1
  · exact ((review_files_parallel_complete
      ⟨fun _ => [], fun _ => .error "io error", fun _ => .error "net"⟩
      [⟨"a.py", "/repo/a.py"⟩] [⟨"a.py", "/repo/a.py"⟩] 1 (by decide)
      (List.Perm.refl _)).2.2 ⟨"a.py", "/repo/a.py"⟩ "io error" rfl).2.1

/-!
Claim C10: the review path always submits the whole file once.
-/

/-- C10: blank (empty or whitespace-only) content makes `review_code` return
the empty list without consulting the model at all (the result does not
depend on the transport); otherwise the result is exactly the
post-processing of one single model request covering the entire file
content with `start_line = 1` — `split_code_into_chunks` plays no role on
this path, so the applied line shift is `k + 1 - 1 = k`, the identity. -/
theorem review_code_whole_file_single_request
    (t1 t2 : Except String ModelResponse) (ci : JsonDict)
    (code_content language : String) :
    ((pyStripString code_content == "") = true →
      review_code t1 ci code_content language = []
      ∧ review_code t1 ci code_content language
        = review_code t2 ci code_content language)
    ∧ ((pyStripString code_content == "") = false →
      review_code t1 ci code_content language
        = reviewPost code_content
            (_get_ai_code_review t1 code_content language 1 ci)) := by
  constructor
  · intro h
    constructor <;> simp [review_code, h]
  · intro h
    simp [review_code, h]

/-- Witness for C10: whitespace-only content yields no issues independent of
the transport; non-blank content goes through exactly the single whole-file
request pipeline. -/
theorem review_code_whole_file_single_request_witness :
    (review_code (.error "a") [] "  " "Python" = []
      ∧ review_code (.error "a") [] "  " "Python"
        = review_code (.error "b") [] "  " "Python")
    ∧ review_code (.error "a") [] "x = 1" "Python"
      = reviewPost "x = 1" (_get_ai_code_review (.error "a") "x = 1" "Python" 1 []) :=
  ⟨(review_code_whole_file_single_request (.error "a") (.error "b") [] "  "
      "Python").1 (by decide),
   (review_code_whole_file_single_request (.error "a") (.error "b") [] "x = 1"
      "Python").2 (by decide)⟩
